import Mathlib

/-!
# Verification of the S2PhaseCrossCorrelation phase-correlation engine

Shallow embedding of `S2PhaseCrossCorrelation/OPCC/OptimizedPhaseCrossCorrelation.pyx`
(the compiled OPCC module) and of the variant of the same file shown in the
repository documentation (which additionally contains the sub-pixel upsampling
branch).

Modelling conventions:
* 2D integer rasters are functions `ℕ → ℕ → ℤ` together with explicit height
  and width bounds (the `Raster` structure for the full-image driver).
* The composition `ifftn (fftn ref * conj (fftn mov))` computed by `find_shift`
  is modelled by its exact mathematical value. For real inputs,
  `ifftn (fftn a ⬝ conj (fftn b))[k,l] = ∑_{m,n} a[(m+k) % h][(n+l) % w] * b[m][n]`,
  the circular cross-correlation, which is integer-valued for integer windows
  (the floating-point error of the library FFT is below the `1e-6` tolerance the
  spec allows, so the exact value is the object the claims speak about).
* `np.argmax` over `np.abs` of that surface is an argmax over the row-major
  enumeration of indices, ties broken by first occurrence.
* The external `skimage` matrix-multiply upsampled DFT (`_upsampled_dft`), whose
  values are transcendental, is abstracted as an oracle parameter: a function
  from its scalar arguments (region size, upsample factor, sample region
  offset) to the magnitude surface of the resulting small correlation array.
  All arithmetic around it (rounding, region size, offsets, peak conversion) is
  modelled exactly over `ℚ`.
* The window-center sequences are built, as in the source, with
  `np.arange(..., dtype=np.int16)`: each stored center is the exact value
  wrapped into the signed 16-bit range (classic numpy silent-overflow
  semantics; the sweep theorems carry a no-overflow bound under which this
  coincides with every other overflow behaviour).
* Cython memoryview/numpy slice bounds are resolved exactly as Python slicing
  does: negative bounds count from the end of the axis and both bounds are
  clamped to the extent; the final `np.sqrt` write is modelled with
  `Real.sqrt`.
-/

/-- Row-major enumeration of the index pairs of an `h × w` array, the order in
which `np.argmax` scans the flattened array. -/
def rowMajorIndices (h w : ℕ) : List (ℕ × ℕ) :=
  (List.range h).flatMap fun i => (List.range w).map fun j => (i, j)

/-- First-occurrence argmax over a list of index pairs: the behaviour of
`np.unravel_index (np.argmax f)`, which returns the first index attaining the
maximum in row-major order.  Returns `(0, 0)` on the empty list. -/
def argmaxRM {β : Type} [LinearOrder β] (f : ℕ × ℕ → β) : List (ℕ × ℕ) → ℕ × ℕ
  | [] => (0, 0)
  | a :: l => l.foldl (fun best q => if f best < f q then q else best) a

/-- Exact value of `ifftn (fftn ref * conj (fftn mov))` at index `p` for an
`h × w` integer window pair: the circular cross-correlation
`∑_{m,n} ref[(m+p.1) % h][(n+p.2) % w] * mov[m][n]`. -/
def crossCorr (h w : ℕ) (ref mov : ℕ → ℕ → ℤ) (p : ℕ × ℕ) : ℤ :=
  ∑ m ∈ Finset.range h, ∑ n ∈ Finset.range w,
    ref ((m + p.1) % h) ((n + p.2) % w) * mov m n

/-- Frequency-wrap conversion of a raw peak index (source lines
`shifts[shifts > midpoints] -= ...` with `midpoints = np.fix(axis_size / 2)`):
indices past `⌊n/2⌋` are mapped to negative shifts by subtracting `n`. -/
def wrapIndex (n idx : ℕ) : ℤ :=
  if (n : ℤ) / 2 < (idx : ℤ) then (idx : ℤ) - n else idx

/-- Steps 1–5 of `find_shift`: cross-correlation surface, first-occurrence
argmax of its magnitude, frequency-wrap of the raw peak index. -/
def coarseShift (h w : ℕ) (ref mov : ℕ → ℕ → ℤ) : ℤ × ℤ :=
  let p := argmaxRM (fun p => (crossCorr h w ref mov p).natAbs) (rowMajorIndices h w)
  (wrapIndex h p.1, wrapIndex w p.2)

/-- Final loop of `find_shift`: any axis whose window dimension is 1 carries no
shift information and is zeroed. -/
def zeroDegenerate {α : Type} [Zero α] (h w : ℕ) (s : α × α) : α × α :=
  (if h = 1 then 0 else s.1, if w = 1 then 0 else s.2)

/-- `find_shift` of `OptimizedPhaseCrossCorrelation.pyx` (the compiled OPCC
module): no upsampling branch exists in this variant; `upsample_factor` and
`overlap_ratio` are accepted but unused.  The returned `float64` pair is
integer-valued, modelled as `ℤ × ℤ`. -/
def find_shift (h w : ℕ) (ref mov : ℕ → ℕ → ℤ)
    (upsample_factor : ℤ) (overlap_r : ℚ) : ℤ × ℤ :=
  zeroDegenerate h w (coarseShift h w ref mov)

/-- `np.fix`: rounding toward zero. -/
def npFix (q : ℚ) : ℤ :=
  if 0 ≤ q then ⌊q⌋ else ⌈q⌉

/-- `np.round`: round half to even (banker's rounding). -/
def npRound (q : ℚ) : ℤ :=
  let f := ⌊q⌋
  let r := q - (f : ℚ)
  if r < 1 / 2 then f
  else if 1 / 2 < r then f + 1
  else if f % 2 = 0 then f else f + 1

/-- The `upsample > 1` branch of the documented `find_shift` variant
(source lines 87–107 of the documented file).  `updft regionSize u offset`
abstracts `np.abs (_upsampled_dft (image_product.conj, regionSize, u, offset).conj)`,
the magnitude surface of the external matrix-multiply upsampled DFT. -/
def refineShift (coarse : ℤ × ℤ) (upsample : ℤ)
    (updft : ℤ → ℚ → ℚ × ℚ → ℕ → ℕ → ℚ) : ℚ × ℚ :=
  let s1 : ℚ := (npRound ((coarse.1 : ℚ) * (upsample : ℚ)) : ℚ) / (upsample : ℚ)
  let s2 : ℚ := (npRound ((coarse.2 : ℚ) * (upsample : ℚ)) : ℚ) / (upsample : ℚ)
  let region : ℤ := ⌈(upsample : ℚ) * (3 / 2)⌉
  let dftshift : ℚ := (npFix ((region : ℚ) / 2) : ℚ)
  let offset : ℚ × ℚ :=
    (dftshift - s1 * (upsample : ℚ), dftshift - s2 * (upsample : ℚ))
  let surf := updft region (upsample : ℚ) offset
  let peak := argmaxRM (fun p => surf p.1 p.2)
    (rowMajorIndices region.toNat region.toNat)
  (s1 + ((peak.1 : ℚ) - dftshift) / (upsample : ℚ),
   s2 + ((peak.2 : ℚ) - dftshift) / (upsample : ℚ))

/-- `find_shift` of the documented variant (source lines 64–113 of the
documented file): coarse estimate, optional sub-pixel refinement when
`upsample > 1`, then degenerate-axis zeroing. -/
def find_shift_full (h w : ℕ) (ref mov : ℕ → ℕ → ℤ) (upsample : ℤ)
    (overlap_r : ℚ) (updft : ℤ → ℚ → ℚ × ℚ → ℕ → ℕ → ℚ) : ℚ × ℚ :=
  let coarse := coarseShift h w ref mov
  let s : ℚ × ℚ :=
    if 1 < upsample then refineShift coarse upsample updft
    else ((coarse.1 : ℚ), (coarse.2 : ℚ))
  zeroDegenerate h w s

/-- Modelled from the spec: §4.1 steps 7–8 (and claim C2's wording) of the
sub-pixel refinement procedure, stated with the spec's own operations —
round the coarse shift to the nearest multiple of `1/upsample_factor`
(`round`), `upsampled_region_size = ceil(upsample_factor * 1.5)`,
`dft_shift = floor(upsampled_region_size / 2)`,
`sample_region_offset = dft_shift - coarse_shift * upsample_factor`, evaluate
the localized upsampled DFT (the same external-oracle parameter), and add the
peak displacement `(peak - dft_shift) / upsample_factor` to the coarse shift. -/
def specSubpixelRefine (coarse : ℤ × ℤ) (u : ℤ)
    (updft : ℤ → ℚ → ℚ × ℚ → ℕ → ℕ → ℚ) : ℚ × ℚ :=
  let c1 : ℚ := (round ((coarse.1 : ℚ) * (u : ℚ)) : ℚ) / (u : ℚ)
  let c2 : ℚ := (round ((coarse.2 : ℚ) * (u : ℚ)) : ℚ) / (u : ℚ)
  let region : ℤ := ⌈(u : ℚ) * (3 / 2)⌉
  let dftshift : ℤ := ⌊(region : ℚ) / 2⌋
  let offset : ℚ × ℚ :=
    ((dftshift : ℚ) - c1 * (u : ℚ), (dftshift : ℚ) - c2 * (u : ℚ))
  let surf := updft region (u : ℚ) offset
  let peak := argmaxRM (fun p => surf p.1 p.2)
    (rowMajorIndices region.toNat region.toNat)
  (c1 + ((peak.1 : ℚ) - (dftshift : ℚ)) / (u : ℚ),
   c2 + ((peak.2 : ℚ) - (dftshift : ℚ)) / (u : ℚ))

/-- The circular shift of the claims: the moving window samples the reference
at offset `(r, c)`, `mov[i][j] = ref[(i+r) mod h][(j+c) mod w]` (equivalently
`np.roll(ref, (-r, -c))`).  With this orientation the estimator's sign
convention — it returns the shift that registers the moving window onto the
reference — recovers `(r, c)` itself. -/
def circShift (h w : ℕ) (ref : ℕ → ℕ → ℤ) (r c : ℤ) : ℕ → ℕ → ℤ :=
  fun i j => ref ((((i : ℤ) + r) % (h : ℤ)).toNat) ((((j : ℤ) + c) % (w : ℤ)).toNat)

/-! ## The window-sweep driver -/

/-- Number of elements of `np.arange(s, e, st)` (natural arguments): numpy
computes the output length exactly from the argument values,
`max(0, ceil((e - s) / st))`, before the elements are materialized in the
target dtype. -/
def nCenters (s e st : ℕ) : ℕ := (e - s + st - 1) / st

/-- Wraparound of a signed 16-bit store: the value actually held after writing
`x` into an `np.int16` cell. -/
def int16wrap (x : ℤ) : ℤ := (x + 32768) % 65536 - 32768

/-- `k`-th element of `np.arange(s, e, st, dtype=np.int16)`: the exact value
`s + k * st` wrapped into the signed 16-bit range, because the source builds
its center sequences with `DTYPE = np.int16`
(`np.arange(window_start, x_max, window_step, dtype=DTYPE)`); the subsequent
`.astype('int')` widens but keeps the already-wrapped values.  For rasters
whose dimension stays below 2^15 no element wraps and this is exactly
`s + k * st`; past that threshold an overflowing `np.arange` wraps silently in
classic numpy (modelled here) and errors in recent numpy — the sweep theorems
below carry a no-overflow bound under which every behaviour coincides. -/
def center16 (s st k : ℕ) : ℤ := int16wrap ((s : ℤ) + (k : ℤ) * (st : ℤ))

/-- `np.arange(s, e, st, dtype=np.int16)` as the list of stored (possibly
wrapped) center values. -/
def arangeList (s e st : ℕ) : List ℤ :=
  (List.range (nCenters s e st)).map (center16 s st)

/-- All window centers visited by the double loop of
`phase_cross_correlation`, row-major (row centers outer, column centers
inner). -/
def windowPairs (H W size step : ℕ) : List (ℤ × ℤ) :=
  (arangeList (size / 2) H step).flatMap fun x =>
    (arangeList (size / 2) W step).map fun y => (x, y)

/-- Python slice-bound semantics for a (possibly negative, e.g. after an int16
center wrap) bound `b` against an axis of length `len`: a negative bound
counts from the end of the axis, and the result is clamped into `[0, len]`. -/
def sliceIdx (len : ℕ) (b : ℤ) : ℕ :=
  min ((if b < 0 then b + (len : ℤ) else b).toNat) len

/-- Footprint of the window centered at `p`: the slice
`[p.1 - half, p.1 + half) × [p.2 - half, p.2 + half)` with both bounds
resolved against the raster extent `(H, W)` exactly as Python slice bounds
are. -/
def inFootprint (H W size : ℕ) (p : ℤ × ℤ) (i j : ℕ) : Prop :=
  (sliceIdx H (p.1 - ((size / 2 : ℕ) : ℤ)) ≤ i ∧
      i < sliceIdx H (p.1 + ((size / 2 : ℕ) : ℤ))) ∧
    (sliceIdx W (p.2 - ((size / 2 : ℕ) : ℤ)) ≤ j ∧
      j < sliceIdx W (p.2 + ((size / 2 : ℕ) : ℤ)))

instance (H W size : ℕ) (p : ℤ × ℤ) (i j : ℕ) :
    Decidable (inFootprint H W size p i j) := by
  unfold inFootprint; exact inferInstance

/-- Per-window estimator call of the double loop: extract the two (clipped)
window views and call `find_shift` with its defaults (`upsample_factor = 1`,
`overlap_ratio = 0.3`), exactly as the compiled OPCC module does
(`find_shift(reference_window, moving_window)`). -/
def windowShift (H W size : ℕ) (refD movD : ℕ → ℕ → ℤ) (p : ℤ × ℤ) : ℤ × ℤ :=
  let half : ℕ := size / 2
  let rs := sliceIdx H (p.1 - (half : ℤ))
  let re := sliceIdx H (p.1 + (half : ℤ))
  let cs := sliceIdx W (p.2 - (half : ℤ))
  let ce := sliceIdx W (p.2 + (half : ℤ))
  find_shift (re - rs) (ce - cs)
    (fun i j => refD (rs + i) (cs + j)) (fun i j => movD (rs + i) (cs + j)) 1 (3 / 10)

/-- The magnitude written over a window's footprint:
`np.sqrt(offset_y * offset_y + offset_x * offset_x)` (the source casts the
integer-valued float shifts through `int()`, exact here). -/
noncomputable def windowValue (H W size : ℕ) (refD movD : ℕ → ℕ → ℤ) (p : ℤ × ℤ) : ℝ :=
  let sh := windowShift H W size refD movD p
  Real.sqrt (((sh.2 * sh.2 + sh.1 * sh.1 : ℤ) : ℝ))

/-- Body of the double loop of `phase_cross_correlation`: broadcast the
window's magnitude over its clipped footprint. -/
noncomputable def sweepStep (H W size : ℕ) (refD movD : ℕ → ℕ → ℤ)
    (out : ℕ → ℕ → ℝ) (p : ℤ × ℤ) : ℕ → ℕ → ℝ :=
  fun i j => if inFootprint H W size p i j then windowValue H W size refD movD p
    else out i j

/-- The full window sweep over an `(H, W)` raster pair: output raster
initialized to `no_data` everywhere, then each window's magnitude painted over
its footprint in row-major order. -/
noncomputable def sweepGrid (H W : ℕ) (refD movD : ℕ → ℕ → ℤ) (size step : ℕ)
    (no_data : ℝ) : ℕ → ℕ → ℝ :=
  (windowPairs H W size step).foldl (sweepStep H W size refD movD)
    (fun _ _ => no_data)

/-- A raster: an integer grid with explicit extent. -/
structure Raster where
  height : ℕ
  width : ℕ
  data : ℕ → ℕ → ℤ

/-- `phase_cross_correlation` of `OptimizedPhaseCrossCorrelation.pyx`: asserts
shape equality of the two rasters before allocating or writing anything
(`assert tuple(reference_arr.shape) == tuple(moving_arr.shape)`), then runs the
window sweep.  The `upsample` argument is accepted but never forwarded to
`find_shift` (the source calls `find_shift(reference_window, moving_window)`
with defaults).  A failed assertion is the `none` branch. -/
noncomputable def phase_cross_correlation (reference moving : Raster)
    (window_size window_step : ℕ) (no_data : ℝ) (upsample : ℤ) :
    Option (ℕ → ℕ → ℝ) :=
  if reference.height = moving.height ∧ reference.width = moving.width then
    some (sweepGrid reference.height reference.width reference.data moving.data
      window_size window_step no_data)
  else none

/-! ## Write-count bookkeeping (spec-side measurement of the sweep) -/

/-- The `k`-th row center's window covers row `i` (same slice-resolved bounds
as `inFootprint`, on the int16 center value). -/
def rowCovers (H size step k i : ℕ) : Prop :=
  sliceIdx H (center16 (size / 2) step k - ((size / 2 : ℕ) : ℤ)) ≤ i ∧
    i < sliceIdx H (center16 (size / 2) step k + ((size / 2 : ℕ) : ℤ))

instance (H size step k i : ℕ) : Decidable (rowCovers H size step k i) := by
  unfold rowCovers; exact inferInstance

/-- Number of windows of the row-center sequence covering row `i`. -/
def rowWriteCount (H size step i : ℕ) : ℕ :=
  ((Finset.range (nCenters (size / 2) H step)).filter
    (fun k => rowCovers H size step k i)).card

/-- Number of sweep windows that write output cell `(i, j)`: the window grid
is a product of row and column center sequences, so the count factorizes. -/
def writeCount (H W size step i j : ℕ) : ℕ :=
  rowWriteCount H size step i * rowWriteCount W size step j

/-- Constant test raster data. -/
def constGrid (c : ℤ) : ℕ → ℕ → ℤ := fun _ _ => c

/-- Test raster data with a single unit spike at `(a, b)`. -/
def spikeAt (a b : ℕ) : ℕ → ℕ → ℤ := fun m n => if m = a ∧ n = b then 1 else 0

/-! ## Helper lemmas: index enumeration and argmax -/

lemma mem_rowMajorIndices {h w : ℕ} {p : ℕ × ℕ} :
    p ∈ rowMajorIndices h w ↔ p.1 < h ∧ p.2 < w := by
  cases p with
  | mk a b =>
    simp [rowMajorIndices, List.mem_flatMap, List.mem_map, List.mem_range]

lemma rowMajorIndices_eq_cons {h w : ℕ} (hh : 0 < h) (hw : 0 < w) :
    ∃ tl, rowMajorIndices h w = (0, 0) :: tl := by
  obtain ⟨h', rfl⟩ : ∃ h', h = h' + 1 := ⟨h - 1, by omega⟩
  obtain ⟨w', rfl⟩ : ∃ w', w = w' + 1 := ⟨w - 1, by omega⟩
  refine ⟨((List.range (w' + 1)).tail.map fun j => (0, j)) ++
    ((List.range (h' + 1)).tail.flatMap fun i => (List.range (w' + 1)).map fun j => (i, j)), ?_⟩
  rw [rowMajorIndices, List.range_succ_eq_map, List.range_succ_eq_map]
  simp [List.flatMap_cons, List.range_succ_eq_map]

lemma argmaxRM_foldl_mem {β : Type} [LinearOrder β] (f : ℕ × ℕ → β) :
    ∀ (l : List (ℕ × ℕ)) (a : ℕ × ℕ),
      l.foldl (fun best q => if f best < f q then q else best) a = a ∨
        l.foldl (fun best q => if f best < f q then q else best) a ∈ l := by
  intro l
  induction l with
  | nil => intro a; exact Or.inl rfl
  | cons q l ih =>
    intro a
    rcases ih (if f a < f q then q else a) with h | h
    · rw [List.foldl_cons, h]
      by_cases hc : f a < f q
      · simp [hc]
      · simp [hc]
    · exact Or.inr (List.mem_cons_of_mem _ h)

lemma argmaxRM_mem {β : Type} [LinearOrder β] (f : ℕ × ℕ → β)
    (l : List (ℕ × ℕ)) (hl : l ≠ []) : argmaxRM f l ∈ l := by
  cases l with
  | nil => exact absurd rfl hl
  | cons a l =>
    rcases argmaxRM_foldl_mem f l a with h | h
    · rw [argmaxRM, h]; exact List.mem_cons_self a l
    · exact List.mem_cons_of_mem _ h

lemma argmaxRM_eq_head {β : Type} [LinearOrder β] (f : ℕ × ℕ → β)
    (a : ℕ × ℕ) (l : List (ℕ × ℕ)) (hmax : ∀ q ∈ l, f q ≤ f a) :
    argmaxRM f (a :: l) = a := by
  rw [argmaxRM]
  induction l with
  | nil => rfl
  | cons q l ih =>
    rw [List.foldl_cons]
    have hq : ¬ f a < f q := not_lt.mpr (hmax q (List.mem_cons_self q l))
    simp only [hq, if_false]
    exact ih fun p hp => hmax p (List.mem_cons_of_mem _ hp)

lemma argmaxRM_foldl_unique {β : Type} [LinearOrder β] (f : ℕ × ℕ → β) (t : ℕ × ℕ) :
    ∀ (l : List (ℕ × ℕ)) (a : ℕ × ℕ),
      (a = t ∨ (f a < f t ∧ t ∈ l)) → (∀ q ∈ l, q = t ∨ f q < f t) →
        l.foldl (fun best q => if f best < f q then q else best) a = t := by
  intro l
  induction l with
  | nil =>
    intro a ha _
    rcases ha with rfl | ⟨_, h⟩
    · rfl
    · exact absurd h (List.not_mem_nil t)
  | cons q l ih =>
    intro a ha hq
    rw [List.foldl_cons]
    rcases ha with rfl | ⟨hlt, hmem⟩
    · have : ¬ f a < f q := by
        rcases hq q (List.mem_cons_self q l) with rfl | h
        · exact lt_irrefl _
        · exact not_lt.mpr h.le
      simp only [this, if_false]
      exact ih a (Or.inl rfl) fun p hp => hq p (List.mem_cons_of_mem _ hp)
    · by_cases hc : q = t
      · subst hc
        simp only [hlt, if_true]
        exact ih q (Or.inl rfl) fun p hp => hq p (List.mem_cons_of_mem _ hp)
      · have hqlt : f q < f t := by
          rcases hq q (List.mem_cons_self q l) with h | h
          · exact absurd h hc
          · exact h
        have hmem' : t ∈ l := by
          rcases List.mem_cons.mp hmem with rfl | h
          · exact absurd rfl hc
          · exact h
        have harg : (if f a < f q then q else a) = t ∨
            (f (if f a < f q then q else a) < f t ∧ t ∈ l) := by
          by_cases hc2 : f a < f q
          · simp only [hc2, if_true]; exact Or.inr ⟨hqlt, hmem'⟩
          · simp only [hc2, if_false]; exact Or.inr ⟨hlt, hmem'⟩
        exact ih _ harg fun p hp => hq p (List.mem_cons_of_mem _ hp)

lemma argmaxRM_eq_of_unique {β : Type} [LinearOrder β] (f : ℕ × ℕ → β)
    (l : List (ℕ × ℕ)) (t : ℕ × ℕ) (hmem : t ∈ l)
    (hstrict : ∀ q ∈ l, q ≠ t → f q < f t) : argmaxRM f l = t := by
  cases l with
  | nil => exact absurd hmem (List.not_mem_nil t)
  | cons a l =>
    rw [argmaxRM]
    have hq : ∀ q ∈ l, q = t ∨ f q < f t := by
      intro q hql
      by_cases hc : q = t
      · exact Or.inl hc
      · exact Or.inr (hstrict q (List.mem_cons_of_mem _ hql) hc)
    by_cases hc : a = t
    · exact argmaxRM_foldl_unique f t l a (Or.inl hc) hq
    · have hmem' : t ∈ l := by
        rcases List.mem_cons.mp hmem with rfl | h
        · exact absurd rfl hc
        · exact h
      exact argmaxRM_foldl_unique f t l a
        (Or.inr ⟨hstrict a (List.mem_cons_self a l) hc, hmem'⟩) hq

/-! ## Helper lemmas: rotation-invariance of sums over `Finset.range` -/

lemma sum_range_rotate_one (g : ℕ → ℤ) (h : ℕ) :
    ∑ m ∈ Finset.range h, g ((m + 1) % h) = ∑ m ∈ Finset.range h, g m := by
  cases h with
  | zero => simp
  | succ n =>
    rw [Finset.sum_range_succ, Finset.sum_range_succ']
    have hlast : (n + 1) % (n + 1) = 0 := Nat.mod_self _
    rw [hlast]
    congr 1
    apply Finset.sum_congr rfl
    intro m hm
    rw [Finset.mem_range] at hm
    rw [Nat.mod_eq_of_lt (by omega)]

lemma sum_range_rotate (g : ℕ → ℤ) (h s : ℕ) :
    ∑ m ∈ Finset.range h, g ((m + s) % h) = ∑ m ∈ Finset.range h, g m := by
  induction s generalizing g with
  | zero =>
    apply Finset.sum_congr rfl
    intro m hm
    rw [Finset.mem_range] at hm
    rw [Nat.add_zero, Nat.mod_eq_of_lt hm]
  | succ s ih =>
    have step : ∀ m, (m + (s + 1)) % h = ((m + s) % h + 1) % h := by
      intro m
      rw [Nat.mod_add_mod, Nat.add_assoc]
    calc ∑ m ∈ Finset.range h, g ((m + (s + 1)) % h)
        = ∑ m ∈ Finset.range h, (fun t => g ((t + 1) % h)) ((m + s) % h) := by
          apply Finset.sum_congr rfl
          intro m _
          rw [step m]
      _ = ∑ m ∈ Finset.range h, (fun t => g ((t + 1) % h)) m :=
          ih (fun t => g ((t + 1) % h))
      _ = ∑ m ∈ Finset.range h, g ((m + 1) % h) := rfl
      _ = ∑ m ∈ Finset.range h, g m := sum_range_rotate_one g h

/-! ## Helper lemmas: structure of the cross-correlation surface -/

lemma crossCorr_shift (h w : ℕ) (ref : ℕ → ℕ → ℤ) (ρ γ k l : ℕ)
    (hρ : ρ < h) (hγ : γ < w) :
    (∑ m ∈ Finset.range h, ∑ n ∈ Finset.range w,
        ref ((m + k) % h) ((n + l) % w) * ref ((m + ρ) % h) ((n + γ) % w))
      = crossCorr h w ref ref ((k + (h - ρ)) % h, (l + (w - γ)) % w) := by
  have hcol : ∀ m : ℕ,
      (∑ n ∈ Finset.range w,
          ref ((m + k) % h) ((n + l) % w) * ref ((m + ρ) % h) ((n + γ) % w))
        = ∑ n ∈ Finset.range w,
            ref ((m + k) % h) ((n + (l + (w - γ))) % w) * ref ((m + ρ) % h) n := by
    intro m
    have := sum_range_rotate
      (fun u => ref ((m + k) % h) ((u + (l + (w - γ))) % w) * ref ((m + ρ) % h) u) w γ
    rw [← this]
    apply Finset.sum_congr rfl
    intro n _
    have hidx : ((n + γ) % w + (l + (w - γ))) % w = (n + l) % w := by
      rw [Nat.mod_add_mod]
      have : n + γ + (l + (w - γ)) = n + l + w := by omega
      rw [this, Nat.add_mod_right]
    rw [hidx]
  have hrow :
      (∑ m ∈ Finset.range h, ∑ n ∈ Finset.range w,
          ref ((m + k) % h) ((n + (l + (w - γ))) % w) * ref ((m + ρ) % h) n)
        = ∑ m ∈ Finset.range h, ∑ n ∈ Finset.range w,
            ref ((m + (k + (h - ρ))) % h) ((n + (l + (w - γ))) % w) * ref m n := by
    have := sum_range_rotate
      (fun t => ∑ n ∈ Finset.range w,
        ref ((t + (k + (h - ρ))) % h) ((n + (l + (w - γ))) % w) * ref t n) h ρ
    rw [← this]
    apply Finset.sum_congr rfl
    intro m _
    apply Finset.sum_congr rfl
    intro n _
    have hidx : ((m + ρ) % h + (k + (h - ρ))) % h = (m + k) % h := by
      rw [Nat.mod_add_mod]
      have : m + ρ + (k + (h - ρ)) = m + k + h := by omega
      rw [this, Nat.add_mod_right]
    rw [hidx]
  calc (∑ m ∈ Finset.range h, ∑ n ∈ Finset.range w,
          ref ((m + k) % h) ((n + l) % w) * ref ((m + ρ) % h) ((n + γ) % w))
      = ∑ m ∈ Finset.range h, ∑ n ∈ Finset.range w,
          ref ((m + k) % h) ((n + (l + (w - γ))) % w) * ref ((m + ρ) % h) n := by
        exact Finset.sum_congr rfl fun m _ => hcol m
    _ = ∑ m ∈ Finset.range h, ∑ n ∈ Finset.range w,
          ref ((m + (k + (h - ρ))) % h) ((n + (l + (w - γ))) % w) * ref m n := hrow
    _ = crossCorr h w ref ref ((k + (h - ρ)) % h, (l + (w - γ)) % w) := by
        unfold crossCorr
        apply Finset.sum_congr rfl
        intro m _
        apply Finset.sum_congr rfl
        intro n _
        rw [Nat.add_mod_mod, Nat.add_mod_mod]

lemma circShift_apply (h w : ℕ) (ref : ℕ → ℕ → ℤ) (r c : ℤ)
    (hh : 0 < h) (hw : 0 < w) (m n : ℕ) :
    circShift h w ref r c m n
      = ref ((m + (r % (h : ℤ)).toNat) % h) ((n + (c % (w : ℤ)).toNat) % w) := by
  have key : ∀ (d : ℕ) (x : ℤ), 0 < d → ∀ i : ℕ,
      (((i : ℤ) + x) % (d : ℤ)).toNat = (i + (x % (d : ℤ)).toNat) % d := by
    intro d x hd i
    have hd0 : (d : ℤ) ≠ 0 := by exact_mod_cast hd.ne'
    have hx : 0 ≤ x % (d : ℤ) := Int.emod_nonneg x hd0
    have h1 : ((i : ℤ) + x) % (d : ℤ) = ((i : ℤ) + x % (d : ℤ)) % (d : ℤ) := by
      conv_lhs => rw [← Int.emod_add_ediv x (d : ℤ)]
      rw [← Int.add_assoc, Int.add_mul_emod_self_left]
    have h2 : (i : ℤ) + x % (d : ℤ) = ((i + (x % (d : ℤ)).toNat : ℕ) : ℤ) := by
      push_cast [Int.toNat_of_nonneg hx]
      ring
    rw [h1, h2, ← Int.natCast_mod, Int.toNat_natCast]
  unfold circShift
  rw [key h r hh m, key w c hw n]

lemma crossCorr_circShift (h w : ℕ) (ref : ℕ → ℕ → ℤ) (r c : ℤ)
    (hh : 0 < h) (hw : 0 < w) (k l : ℕ) :
    crossCorr h w ref (circShift h w ref r c) (k, l)
      = crossCorr h w ref ref
          ((k + (h - (r % (h : ℤ)).toNat)) % h, (l + (w - (c % (w : ℤ)).toNat)) % w) := by
  have hρ : (r % (h : ℤ)).toNat < h := by
    have hd0 : (0 : ℤ) < (h : ℤ) := by exact_mod_cast hh
    have := Int.emod_lt_of_pos r hd0
    omega
  have hγ : (c % (w : ℤ)).toNat < w := by
    have hd0 : (0 : ℤ) < (w : ℤ) := by exact_mod_cast hw
    have := Int.emod_lt_of_pos c hd0
    omega
  rw [← crossCorr_shift h w ref _ _ k l hρ hγ]
  unfold crossCorr
  apply Finset.sum_congr rfl
  intro m _
  apply Finset.sum_congr rfl
  intro n _
  rw [circShift_apply h w ref r c hh hw m n]

lemma crossCorr_zero_self (h w : ℕ) (ref : ℕ → ℕ → ℤ) :
    crossCorr h w ref ref (0, 0)
      = ∑ m ∈ Finset.range h, ∑ n ∈ Finset.range w, ref m n ^ 2 := by
  unfold crossCorr
  apply Finset.sum_congr rfl
  intro m hm
  rw [Finset.mem_range] at hm
  apply Finset.sum_congr rfl
  intro n hn
  rw [Finset.mem_range] at hn
  rw [Nat.add_zero, Nat.add_zero, Nat.mod_eq_of_lt hm, Nat.mod_eq_of_lt hn]
  ring

lemma sum_sq_rotate (h w k l : ℕ) (ref : ℕ → ℕ → ℤ) :
    (∑ m ∈ Finset.range h, ∑ n ∈ Finset.range w, ref ((m + k) % h) ((n + l) % w) ^ 2)
      = ∑ m ∈ Finset.range h, ∑ n ∈ Finset.range w, ref m n ^ 2 := by
  calc (∑ m ∈ Finset.range h, ∑ n ∈ Finset.range w, ref ((m + k) % h) ((n + l) % w) ^ 2)
      = ∑ m ∈ Finset.range h, ∑ n ∈ Finset.range w, ref ((m + k) % h) n ^ 2 :=
        Finset.sum_congr rfl fun m _ =>
          sum_range_rotate (fun u => ref ((m + k) % h) u ^ 2) w l
    _ = ∑ m ∈ Finset.range h, ∑ n ∈ Finset.range w, ref m n ^ 2 :=
        sum_range_rotate (fun t => ∑ n ∈ Finset.range w, ref t n ^ 2) h k

lemma crossCorr_self_natAbs_le (h w : ℕ) (ref : ℕ → ℕ → ℤ) (p : ℕ × ℕ) :
    (crossCorr h w ref ref p).natAbs ≤ (crossCorr h w ref ref (0, 0)).natAbs := by
  set a0 : ℤ := ∑ m ∈ Finset.range h, ∑ n ∈ Finset.range w, ref m n ^ 2 with ha0def
  have ha0 : crossCorr h w ref ref (0, 0) = a0 := crossCorr_zero_self h w ref
  have ha0nn : 0 ≤ a0 :=
    Finset.sum_nonneg fun m _ => Finset.sum_nonneg fun n _ => sq_nonneg _
  set T := Finset.range h ×ˢ Finset.range w with hT
  set X : ℕ × ℕ → ℤ := fun q => ref ((q.1 + p.1) % h) ((q.2 + p.2) % w) with hX
  set Y : ℕ × ℕ → ℤ := fun q => ref q.1 q.2 with hY
  have hA : crossCorr h w ref ref p = ∑ q ∈ T, X q * Y q := by
    rw [hT, Finset.sum_product]
    rfl
  have hX2 : ∑ q ∈ T, X q ^ 2 = a0 := by
    rw [hT, Finset.sum_product]
    exact sum_sq_rotate h w p.1 p.2 ref
  have hY2 : ∑ q ∈ T, Y q ^ 2 = a0 := by
    rw [hT, Finset.sum_product, ha0def]
  have cs := Finset.sum_mul_sq_le_sq_mul_sq T X Y
  rw [hX2, hY2] at cs
  have cs2 : (∑ q ∈ T, X q * Y q) ^ 2 ≤ a0 ^ 2 := by
    calc (∑ q ∈ T, X q * Y q) ^ 2 ≤ a0 * a0 := cs
      _ = a0 ^ 2 := by ring
  have habs := abs_le_of_sq_le_sq' cs2 ha0nn
  rw [← hA] at habs
  rw [ha0]
  omega

lemma find_shift_self (h w : ℕ) (g : ℕ → ℕ → ℤ) (u : ℤ) (o : ℚ) :
    find_shift h w g g u o = (0, 0) := by
  have hpeak :
      argmaxRM (fun p => (crossCorr h w g g p).natAbs) (rowMajorIndices h w) = (0, 0) := by
    rcases Nat.eq_zero_or_pos h with hh | hh
    · have hnil : rowMajorIndices h w = [] := by
        rw [List.eq_nil_iff_forall_not_mem]
        intro p hp
        rw [mem_rowMajorIndices] at hp
        omega
      rw [hnil]
      rfl
    · rcases Nat.eq_zero_or_pos w with hw | hw
      · have hnil : rowMajorIndices h w = [] := by
          rw [List.eq_nil_iff_forall_not_mem]
          intro p hp
          rw [mem_rowMajorIndices] at hp
          omega
        rw [hnil]
        rfl
      · obtain ⟨tl, htl⟩ := rowMajorIndices_eq_cons hh hw
        have hmax : ∀ q ∈ tl, (crossCorr h w g g q).natAbs ≤ (crossCorr h w g g (0, 0)).natAbs :=
          fun q _ => crossCorr_self_natAbs_le h w g q
        rw [htl]
        exact argmaxRM_eq_head _ (0, 0) tl hmax
  unfold find_shift coarseShift
  rw [hpeak]
  have hwrap : ∀ n : ℕ, wrapIndex n 0 = 0 := by
    intro n
    unfold wrapIndex
    rw [if_neg]
    · simp
    · rw [Nat.cast_zero]
      exact not_lt.mpr (Int.ediv_nonneg (Int.natCast_nonneg n) (by norm_num))
  simp [hwrap, zeroDegenerate]

/-! ## Helper lemmas: the sweep fold -/

lemma windowValue_nonneg (H W size : ℕ) (refD movD : ℕ → ℕ → ℤ) (p : ℤ × ℤ) :
    0 ≤ windowValue H W size refD movD p :=
  Real.sqrt_nonneg _

lemma windowValue_self (H W size : ℕ) (d : ℕ → ℕ → ℤ) (p : ℤ × ℤ) :
    windowValue H W size d d p = 0 := by
  unfold windowValue
  have hsh : windowShift H W size d d p = (0, 0) := by
    unfold windowShift
    exact find_shift_self _ _ _ 1 (3 / 10)
  rw [hsh]
  norm_num

lemma foldl_sweepStep_uncovered (H W size : ℕ) (refD movD : ℕ → ℕ → ℤ) (i j : ℕ) :
    ∀ (l : List (ℤ × ℤ)) (g0 : ℕ → ℕ → ℝ),
      (∀ p ∈ l, ¬ inFootprint H W size p i j) →
        l.foldl (sweepStep H W size refD movD) g0 i j = g0 i j := by
  intro l
  induction l with
  | nil => intro g0 _; rfl
  | cons q l ih =>
    intro g0 hl
    rw [List.foldl_cons]
    rw [ih _ fun p hp => hl p (List.mem_cons_of_mem _ hp)]
    unfold sweepStep
    rw [if_neg (hl q (List.mem_cons_self q l))]

lemma foldl_sweepStep_nonneg (H W size : ℕ) (refD movD : ℕ → ℕ → ℤ) (i j : ℕ) :
    ∀ (l : List (ℤ × ℤ)) (g0 : ℕ → ℕ → ℝ),
      (0 ≤ g0 i j ∨ ∃ p ∈ l, inFootprint H W size p i j) →
        0 ≤ l.foldl (sweepStep H W size refD movD) g0 i j := by
  intro l
  induction l with
  | nil =>
    intro g0 h
    rcases h with h | ⟨p, hp, _⟩
    · exact h
    · exact absurd hp (List.not_mem_nil p)
  | cons q l ih =>
    intro g0 h
    rw [List.foldl_cons]
    apply ih
    by_cases hc : inFootprint H W size q i j
    · left
      unfold sweepStep
      rw [if_pos hc]
      exact windowValue_nonneg H W size refD movD q
    · rcases h with h | ⟨p, hp, hcov⟩
      · left
        unfold sweepStep
        rw [if_neg hc]
        exact h
      · rcases List.mem_cons.mp hp with rfl | hp'
        · exact absurd hcov hc
        · exact Or.inr ⟨p, hp', hcov⟩

lemma foldl_sweepStep_self_zero (H W size : ℕ) (d : ℕ → ℕ → ℤ) (i j : ℕ) :
    ∀ (l : List (ℤ × ℤ)) (g0 : ℕ → ℕ → ℝ),
      (g0 i j = 0 ∨ ∃ p ∈ l, inFootprint H W size p i j) →
        l.foldl (sweepStep H W size d d) g0 i j = 0 := by
  intro l
  induction l with
  | nil =>
    intro g0 h
    rcases h with h | ⟨p, hp, _⟩
    · exact h
    · exact absurd hp (List.not_mem_nil p)
  | cons q l ih =>
    intro g0 h
    rw [List.foldl_cons]
    apply ih
    by_cases hc : inFootprint H W size q i j
    · left
      unfold sweepStep
      rw [if_pos hc]
      exact windowValue_self H W size d q
    · rcases h with h | ⟨p, hp, hcov⟩
      · left
        unfold sweepStep
        rw [if_neg hc]
        exact h
      · rcases List.mem_cons.mp hp with rfl | hp'
        · exact absurd hcov hc
        · exact Or.inr ⟨p, hp', hcov⟩

lemma foldl_sweepStep_form (H W size : ℕ) (refD movD : ℕ → ℕ → ℤ) (i j : ℕ) :
    ∀ (l : List (ℤ × ℤ)) (g0 : ℕ → ℕ → ℝ),
      l.foldl (sweepStep H W size refD movD) g0 i j = g0 i j ∨
        ∃ a b : ℤ, l.foldl (sweepStep H W size refD movD) g0 i j
          = Real.sqrt (((b * b + a * a : ℤ) : ℝ)) := by
  intro l
  induction l with
  | nil => intro g0; exact Or.inl rfl
  | cons q l ih =>
    intro g0
    rw [List.foldl_cons]
    rcases ih (sweepStep H W size refD movD g0 q) with h | h
    · have hstep : sweepStep H W size refD movD g0 q i j
          = if inFootprint H W size q i j then windowValue H W size refD movD q
            else g0 i j := rfl
      rw [hstep] at h
      by_cases hc : inFootprint H W size q i j
      · rw [h, if_pos hc]
        exact Or.inr ⟨(windowShift H W size refD movD q).1,
          (windowShift H W size refD movD q).2, rfl⟩
      · rw [h, if_neg hc]
        exact Or.inl rfl
    · exact Or.inr h

/-! ## Helper lemmas: exact tiling arithmetic -/

lemma nat_div_band (size k i : ℕ) (hs : 0 < size) :
    k * size ≤ i ∧ i < (k + 1) * size ↔ k = i / size := by
  constructor
  · rintro ⟨h1, h2⟩
    have hlo : k ≤ i / size := (Nat.le_div_iff_mul_le hs).mpr h1
    have hhi : i / size < k + 1 := (Nat.div_lt_iff_lt_mul hs).mpr h2
    omega
  · rintro rfl
    constructor
    · exact Nat.div_mul_le_self i size
    · exact (Nat.div_lt_iff_lt_mul hs).mp (Nat.lt_succ_self _)

lemma nCenters_exact (q a : ℕ) (hq : 0 < q) :
    nCenters q (a * (2 * q)) (2 * q) = a := by
  unfold nCenters
  cases a with
  | zero =>
    simp only [Nat.zero_mul, Nat.zero_sub]
    exact Nat.div_eq_of_lt (by omega)
  | succ a' =>
    have key : (a' + 1) * (2 * q) - q + 2 * q - 1 = (q - 1) + 2 * q * (a' + 1) := by
      have h1 : (a' + 1) * (2 * q) = a' * (2 * q) + 2 * q := Nat.succ_mul _ _
      have h2 : 2 * q * (a' + 1) = a' * (2 * q) + 2 * q := by ring
      set t := a' * (2 * q)
      omega
    rw [key, Nat.add_mul_div_left _ _ (by omega : 0 < 2 * q),
      Nat.div_eq_of_lt (by omega), Nat.zero_add]

lemma center16_no_wrap (s st k : ℕ) (hb : s + k * st ≤ 32767) :
    center16 s st k = ((s + k * st : ℕ) : ℤ) := by
  unfold center16 int16wrap
  have h1 : (s : ℤ) + (k : ℤ) * (st : ℤ) = ((s + k * st : ℕ) : ℤ) := by
    push_cast
    ring
  rw [h1]
  have hX : (((s + k * st : ℕ) : ℤ)) ≤ 32767 := by exact_mod_cast hb
  have hX0 : (0 : ℤ) ≤ (((s + k * st : ℕ) : ℤ)) := Int.natCast_nonneg _
  omega

lemma sliceIdx_natCast (len b : ℕ) : sliceIdx len (b : ℤ) = min b len := by
  unfold sliceIdx
  rw [if_neg (not_lt.mpr (Int.natCast_nonneg b)), Int.toNat_natCast]

lemma sliceIdx_sub_natCast (len x y : ℕ) (hxy : y ≤ x) :
    sliceIdx len ((x : ℤ) - (y : ℤ)) = min (x - y) len := by
  have h1 : (x : ℤ) - (y : ℤ) = ((x - y : ℕ) : ℤ) := by
    have : ((x - y : ℕ) : ℤ) = (x : ℤ) - (y : ℤ) := Int.ofNat_sub hxy
    omega
  rw [h1, sliceIdx_natCast]

lemma sliceIdx_add_natCast (len x y : ℕ) :
    sliceIdx len ((x : ℤ) + (y : ℤ)) = min (x + y) len := by
  have h1 : (x : ℤ) + (y : ℤ) = ((x + y : ℕ) : ℤ) := by push_cast; ring
  rw [h1, sliceIdx_natCast]

lemma rowCovers_iff (q a k i : ℕ) (hq : 0 < q) (hk : k < a)
    (hb : a * (2 * q) ≤ 32768) :
    rowCovers (a * (2 * q)) (2 * q) (2 * q) k i ↔ k = i / (2 * q) := by
  unfold rowCovers
  have hhalf : 2 * q / 2 = q := by omega
  rw [hhalf]
  have hcb : q + k * (2 * q) ≤ 32767 := by
    have h1 : (k + 1) * (2 * q) ≤ a * (2 * q) := Nat.mul_le_mul_right _ hk
    have h2 : (k + 1) * (2 * q) = k * (2 * q) + 2 * q := Nat.succ_mul _ _
    omega
  rw [center16_no_wrap q (2 * q) k hcb]
  rw [sliceIdx_sub_natCast _ _ _ (Nat.le_add_right q _), sliceIdx_add_natCast]
  have hlow : q + k * (2 * q) - q = k * (2 * q) := by
    rw [Nat.add_sub_cancel_left]
  have hup : q + k * (2 * q) + q = (k + 1) * (2 * q) := by ring
  have hmin1 : min (k * (2 * q)) (a * (2 * q)) = k * (2 * q) :=
    Nat.min_eq_left (Nat.mul_le_mul_right _ (Nat.le_of_lt hk))
  have hmin2 : min ((k + 1) * (2 * q)) (a * (2 * q)) = (k + 1) * (2 * q) :=
    Nat.min_eq_left (Nat.mul_le_mul_right _ hk)
  rw [hlow, hup, hmin1, hmin2]
  exact nat_div_band (2 * q) k i (by omega)

lemma rowWriteCount_exact (q a i : ℕ) (hq : 0 < q) (hi : i < a * (2 * q))
    (hb : a * (2 * q) ≤ 32768) :
    rowWriteCount (a * (2 * q)) (2 * q) (2 * q) i = 1 := by
  unfold rowWriteCount
  have hhalf : 2 * q / 2 = q := by omega
  rw [hhalf, nCenters_exact q a hq]
  have hdiv : i / (2 * q) < a := (Nat.div_lt_iff_lt_mul (by omega)).mpr hi
  have hset : (Finset.range a).filter
      (fun k => rowCovers (a * (2 * q)) (2 * q) (2 * q) k i) = {i / (2 * q)} := by
    apply Finset.ext
    intro k
    simp only [Finset.mem_filter, Finset.mem_range, Finset.mem_singleton]
    constructor
    · rintro ⟨hk, hcov⟩
      exact (rowCovers_iff q a k i hq hk hb).mp hcov
    · rintro rfl
      exact ⟨hdiv, (rowCovers_iff q a _ i hq hdiv hb).mpr rfl⟩
  rw [hset, Finset.card_singleton]

lemma exists_cover_pair (H W size step i j : ℕ)
    (hr : 0 < rowWriteCount H size step i) (hc : 0 < rowWriteCount W size step j) :
    ∃ p ∈ windowPairs H W size step, inFootprint H W size p i j := by
  unfold rowWriteCount at hr hc
  obtain ⟨k, hk⟩ := Finset.card_pos.mp hr
  obtain ⟨k', hk'⟩ := Finset.card_pos.mp hc
  rw [Finset.mem_filter, Finset.mem_range] at hk hk'
  refine ⟨(center16 (size / 2) step k, center16 (size / 2) step k'), ?_, ?_⟩
  · unfold windowPairs arangeList
    rw [List.mem_flatMap]
    refine ⟨center16 (size / 2) step k, ?_, ?_⟩
    · exact List.mem_map.mpr ⟨k, List.mem_range.mpr hk.1, rfl⟩
    · exact List.mem_map.mpr ⟨center16 (size / 2) step k',
        List.mem_map.mpr ⟨k', List.mem_range.mpr hk'.1, rfl⟩, rfl⟩
  · exact ⟨hk.2, hk'.2⟩

lemma sweepGrid_uncovered (H W size step : ℕ) (refD movD : ℕ → ℕ → ℤ)
    (nd : ℝ) (i j : ℕ)
    (h : ∀ p ∈ windowPairs H W size step, ¬ inFootprint H W size p i j) :
    sweepGrid H W refD movD size step nd i j = nd :=
  foldl_sweepStep_uncovered H W size refD movD i j _ _ h

lemma sweepGrid_self_covered (H W size step : ℕ) (d : ℕ → ℕ → ℤ)
    (nd : ℝ) (i j : ℕ)
    (h : ∃ p ∈ windowPairs H W size step, inFootprint H W size p i j) :
    sweepGrid H W d d size step nd i j = 0 :=
  foldl_sweepStep_self_zero H W size d i j _ _ (Or.inr h)

lemma sweepGrid_covered_nonneg (H W size step : ℕ) (refD movD : ℕ → ℕ → ℤ)
    (nd : ℝ) (i j : ℕ)
    (h : ∃ p ∈ windowPairs H W size step, inFootprint H W size p i j) :
    0 ≤ sweepGrid H W refD movD size step nd i j :=
  foldl_sweepStep_nonneg H W size refD movD i j _ _ (Or.inr h)

/-! ## Helper lemmas: frequency-wrap arithmetic -/

lemma wrapIndex_bounds (n idx : ℕ) (hn : 0 < n) (hidx : idx < n) :
    -(n : ℤ) < 2 * wrapIndex n idx ∧ 2 * wrapIndex n idx ≤ n := by
  unfold wrapIndex
  by_cases hc : (n : ℤ) / 2 < (idx : ℤ)
  · rw [if_pos hc]
    omega
  · rw [if_neg hc]
    omega

lemma wrapIndex_emod (n : ℕ) (r : ℤ) (hn : 0 < n)
    (h1 : -(n : ℤ) < 2 * r) (h2 : 2 * r < n) :
    wrapIndex n (r % (n : ℤ)).toNat = r := by
  have hn0 : ((n : ℤ)) ≠ 0 := by exact_mod_cast hn.ne'
  have hnn : 0 ≤ r % (n : ℤ) := Int.emod_nonneg r hn0
  have hlt : r % (n : ℤ) < n := Int.emod_lt_of_pos r (by exact_mod_cast hn)
  have hchar : r % (n : ℤ) = r ∨ r % (n : ℤ) = r + n := by
    rcases le_or_lt 0 r with hr | hr
    · left
      exact Int.emod_eq_of_lt hr (by omega)
    · right
      have h3 : (r + (n : ℤ)) % (n : ℤ) = r % (n : ℤ) := by
        have := Int.add_mul_emod_self_left r (n : ℤ) 1
        rwa [mul_one] at this
      have h4 : (r + (n : ℤ)) % (n : ℤ) = r + n := Int.emod_eq_of_lt (by omega) (by omega)
      omega
  have ht : (((r % (n : ℤ)).toNat : ℕ) : ℤ) = r % (n : ℤ) := Int.toNat_of_nonneg hnn
  unfold wrapIndex
  by_cases hc : (n : ℤ) / 2 < (((r % (n : ℤ)).toNat : ℕ) : ℤ)
  · rw [if_pos hc]
    omega
  · rw [if_neg hc]
    omega

lemma index_unwrap (n x ρ : ℕ) (hx : x < n) (hρ : ρ < n)
    (h : (x + (n - ρ)) % n = 0) : x = ρ := by
  obtain ⟨c, hc⟩ := Nat.dvd_of_mod_eq_zero h
  have hn : 0 < n := by omega
  have hc2 : c < 2 := by
    by_contra hcon
    push_neg at hcon
    have h2n : 2 * n ≤ n * c := by
      calc 2 * n = n * 2 := by ring
        _ ≤ n * c := Nat.mul_le_mul_left n hcon
    rw [← hc] at h2n
    omega
  have hc1 : c ≠ 0 := by
    rintro rfl
    rw [Nat.mul_zero] at hc
    omega
  have hc3 : c = 1 := by omega
  rw [hc3, Nat.mul_one] at hc
  omega

/-! ## Claim theorems -/

/-- C1 (amended): for non-empty equal-shaped windows where the moving window is
the reference circularly shifted by `(r, c)` with `|r| < h/2`, `|c| < w/2`
(stated as `-h < 2r < h`, `-w < 2c < w`), and provided the reference window's
circular autocorrelation magnitude is strictly maximal at zero lag (no
nontrivial circular self-similarity — without this, e.g. for a constant
window, the argmax ties and the estimator returns `(0, 0)`), `find_shift`
with `upsample_factor = 1` returns exactly `(r, c)`.  The estimator computes
exact integers here, so "up to floating-point tolerance below 1e-6" is
exact equality. -/
theorem find_shift_recovers_known_shift (h w : ℕ) (ref : ℕ → ℕ → ℤ)
    (r c : ℤ) (o : ℚ) (hh : 0 < h) (hw : 0 < w)
    (hr1 : -(h : ℤ) < 2 * r) (hr2 : 2 * r < h)
    (hc1 : -(w : ℤ) < 2 * c) (hc2 : 2 * c < w)
    (huniq : ∀ p ∈ rowMajorIndices h w, p ≠ (0, 0) →
      (crossCorr h w ref ref p).natAbs < (crossCorr h w ref ref (0, 0)).natAbs) :
    find_shift h w ref (circShift h w ref r c) 1 o = (r, c) := by
  set mov := circShift h w ref r c with hmov
  set ρ := (r % (h : ℤ)).toNat with hρdef
  set γ := (c % (w : ℤ)).toNat with hγdef
  have hρ : ρ < h := by
    have := Int.emod_lt_of_pos r (by exact_mod_cast hh : (0 : ℤ) < (h : ℤ))
    omega
  have hγ : γ < w := by
    have := Int.emod_lt_of_pos c (by exact_mod_cast hw : (0 : ℤ) < (w : ℤ))
    omega
  have htrans : ∀ k l : ℕ, crossCorr h w ref mov (k, l)
      = crossCorr h w ref ref ((k + (h - ρ)) % h, (l + (w - γ)) % w) :=
    fun k l => crossCorr_circShift h w ref r c hh hw k l
  have eρ : (ρ + (h - ρ)) % h = 0 := by
    have : ρ + (h - ρ) = h := by omega
    rw [this, Nat.mod_self]
  have eγ : (γ + (w - γ)) % w = 0 := by
    have : γ + (w - γ) = w := by omega
    rw [this, Nat.mod_self]
  have hft : crossCorr h w ref mov (ρ, γ) = crossCorr h w ref ref (0, 0) := by
    rw [htrans ρ γ, eρ, eγ]
  have hpeak : argmaxRM (fun p => (crossCorr h w ref mov p).natAbs)
      (rowMajorIndices h w) = (ρ, γ) := by
    apply argmaxRM_eq_of_unique
    · exact mem_rowMajorIndices.mpr ⟨hρ, hγ⟩
    · intro q hq hne
      obtain ⟨q1, q2⟩ := q
      have hq' := mem_rowMajorIndices.mp hq
      have hσmem : ((q1 + (h - ρ)) % h, (q2 + (w - γ)) % w) ∈ rowMajorIndices h w :=
        mem_rowMajorIndices.mpr ⟨Nat.mod_lt _ hh, Nat.mod_lt _ hw⟩
      have hσne : ((q1 + (h - ρ)) % h, (q2 + (w - γ)) % w) ≠ ((0 : ℕ), (0 : ℕ)) := by
        intro heq
        apply hne
        have h1 : (q1 + (h - ρ)) % h = 0 := congrArg Prod.fst heq
        have h2 : (q2 + (w - γ)) % w = 0 := congrArg Prod.snd heq
        have e1 : q1 = ρ := index_unwrap h q1 ρ hq'.1 hρ h1
        have e2 : q2 = γ := index_unwrap w q2 γ hq'.2 hγ h2
        rw [e1, e2]
      have := huniq _ hσmem hσne
      show (crossCorr h w ref mov (q1, q2)).natAbs < (crossCorr h w ref mov (ρ, γ)).natAbs
      rw [htrans q1 q2, hft]
      exact this
  unfold find_shift coarseShift
  rw [hpeak]
  have e2 : wrapIndex h ρ = r := wrapIndex_emod h r hh hr1 hr2
  have e3 : wrapIndex w γ = c := wrapIndex_emod w c hw hc1 hc2
  simp only [e2, e3]
  unfold zeroDegenerate
  have f1 : (if h = 1 then (0 : ℤ) else r) = r := by
    by_cases h1 : h = 1
    · rw [if_pos h1]
      subst h1
      simp only [Nat.cast_one] at hr1 hr2
      omega
    · rw [if_neg h1]
  have f2 : (if w = 1 then (0 : ℤ) else c) = c := by
    by_cases h1 : w = 1
    · rw [if_pos h1]
      subst h1
      simp only [Nat.cast_one] at hc1 hc2
      omega
    · rw [if_neg h1]
  rw [f1, f2]

set_option maxRecDepth 100000 in
/-- C1 witness: a 4×4 spike window has a strict autocorrelation peak, and the
estimator recovers the shift `(1, 0)` exactly. -/
theorem find_shift_recovers_known_shift_witness :
    find_shift 4 4 (spikeAt 0 0) (circShift 4 4 (spikeAt 0 0) 1 0) 1 (3 / 10) = (1, 0) :=
  find_shift_recovers_known_shift 4 4 (spikeAt 0 0) 1 0 (3 / 10)
    (by decide) (by decide) (by decide) (by decide) (by decide) (by decide) (by decide)

set_option maxRecDepth 100000 in
/-- C1 counterexample: for a constant 4×4 reference window (equal shapes,
non-empty, offset `(1, 0)` with `|1| < 4/2`), the cross-correlation surface is
constant, the first-occurrence argmax ties to index `(0, 0)`, and the
estimator returns `(0, 0)`, not `(1, 0)` — refuting the claim as stated. -/
theorem find_shift_known_shift_fails_constant :
    find_shift 4 4 (constGrid 1) (circShift 4 4 (constGrid 1) 1 0) 1 (3 / 10) ≠ (1, 0) := by
  decide

/-- C2: for `upsample_factor > 1` the documented estimator's sub-pixel branch
agrees exactly with the procedure stated by the spec — round the coarse shift
to the nearest multiple of `1/u` (a no-op tie-free rounding since the coarse
shift is integral, so the code's round-half-even and the spec's nearest-multiple
rounding agree), `upsampled_region_size = ⌈1.5 u⌉`,
`dft_shift = ⌊region/2⌋` (the code's `np.fix` equals floor since the region is
positive), `sample_region_offset = dft_shift - coarse*u`, the localized
upsampled DFT of the cross-power spectrum evaluated at exactly those arguments,
and refined shift = coarse + (peak - dft_shift)/u, followed by the
degenerate-axis zeroing both perform. -/
theorem find_shift_refinement_matches_spec (h w : ℕ) (ref mov : ℕ → ℕ → ℤ)
    (u : ℤ) (o : ℚ) (updft : ℤ → ℚ → ℚ × ℚ → ℕ → ℕ → ℚ) (hu : 1 < u) :
    find_shift_full h w ref mov u o updft
      = zeroDegenerate h w (specSubpixelRefine (coarseShift h w ref mov) u updft) := by
  show zeroDegenerate h w
      (if 1 < u then refineShift (coarseShift h w ref mov) u updft
        else (((coarseShift h w ref mov).1 : ℚ), ((coarseShift h w ref mov).2 : ℚ)))
    = zeroDegenerate h w (specSubpixelRefine (coarseShift h w ref mov) u updft)
  rw [if_pos hu]
  congr 1
  unfold refineShift specSubpixelRefine
  have hrnd : ∀ z : ℤ, npRound ((z : ℚ) * (u : ℚ)) = round ((z : ℚ) * (u : ℚ)) := by
    intro z
    have hcast : (z : ℚ) * (u : ℚ) = ((z * u : ℤ) : ℚ) := by push_cast; ring
    rw [hcast, round_intCast]
    unfold npRound
    rw [Int.floor_intCast]
    norm_num
  have hfix : npFix ((( ⌈(u : ℚ) * (3 / 2)⌉ : ℤ) : ℚ) / 2)
      = ⌊((( ⌈(u : ℚ) * (3 / 2)⌉ : ℤ) : ℚ)) / 2⌋ := by
    unfold npFix
    rw [if_pos]
    apply div_nonneg _ (by norm_num)
    have h0 : (0 : ℚ) ≤ (u : ℚ) * (3 / 2) := by
      have : (0 : ℚ) < (u : ℚ) := by exact_mod_cast lt_trans one_pos hu
      positivity
    exact_mod_cast Int.ceil_nonneg h0
  simp only [hrnd, hfix]

/-- C2 witness: concrete instantiation at `u = 2` on a 2×2 spike pair with a
trivial oracle surface. -/
theorem find_shift_refinement_matches_spec_witness :
    find_shift_full 2 2 (spikeAt 0 0) (spikeAt 1 1) 2 (3 / 10) (fun _ _ _ _ _ => 0)
      = zeroDegenerate 2 2 (specSubpixelRefine (coarseShift 2 2 (spikeAt 0 0) (spikeAt 1 1)) 2
          (fun _ _ _ _ _ => 0)) :=
  find_shift_refinement_matches_spec 2 2 (spikeAt 0 0) (spikeAt 1 1) 2 (3 / 10)
    (fun _ _ _ _ _ => 0) (by decide)

/-- C3: `find_shift` on any non-empty window paired with itself returns exactly
`(0, 0)` (first-occurrence argmax lands on index `(0, 0)`, which
Cauchy–Schwarz makes a maximum of the autocorrelation magnitude); and in the
concrete 128×128 constant-5 scenario with `window_size = window_step = 64`,
`upsample = 1`, every output cell (all are covered) holds magnitude 0. -/
theorem zero_shift_identity :
    (∀ (h w : ℕ) (win : ℕ → ℕ → ℤ) (u : ℤ) (o : ℚ), 0 < h → 0 < w →
        find_shift h w win win u o = (0, 0)) ∧
      ∀ i j : ℕ, i < 128 → j < 128 →
        sweepGrid 128 128 (constGrid 5) (constGrid 5) 64 64 (-9999) i j = 0 := by
  constructor
  · intro h w win u o _ _
    exact find_shift_self h w win u o
  · intro i j hi hj
    apply sweepGrid_self_covered
    apply exists_cover_pair
    · have h1 := rowWriteCount_exact 32 2 i (by norm_num) (by omega) (by norm_num)
      norm_num at h1
      omega
    · have h1 := rowWriteCount_exact 32 2 j (by norm_num) (by omega) (by norm_num)
      norm_num at h1
      omega

/-- C3 witness: concrete instances of both conjuncts. -/
theorem zero_shift_identity_witness :
    find_shift 1 1 (constGrid 3) (constGrid 3) 1 (3 / 10) = (0, 0) ∧
      sweepGrid 128 128 (constGrid 5) (constGrid 5) 64 64 (-9999) 0 0 = 0 :=
  ⟨zero_shift_identity.1 1 1 (constGrid 3) 1 (3 / 10) (by decide) (by decide),
   zero_shift_identity.2 0 0 (by decide) (by decide)⟩

/-- C4 (amended): for non-empty windows the components of the coarse
`find_shift` estimate lie in the half-open interval `(-N/2, N/2]` per axis —
left-open, right-closed (for even `N` the raw index `N/2` is *not* past the
`np.fix(N/2)` midpoint, so it stays `+N/2`; the claim's interval
`[-N/2, N/2)` has the openness on the wrong side).  The wrap itself subtracts
the axis size exactly when the raw index exceeds `⌊N/2⌋`, as the claim's
second sentence states. -/
theorem shift_vector_range (h w : ℕ) (ref mov : ℕ → ℕ → ℤ) (u : ℤ) (o : ℚ)
    (hh : 0 < h) (hw : 0 < w) :
    -(h : ℤ) < 2 * (find_shift h w ref mov u o).1 ∧
      2 * (find_shift h w ref mov u o).1 ≤ h ∧
      -(w : ℤ) < 2 * (find_shift h w ref mov u o).2 ∧
      2 * (find_shift h w ref mov u o).2 ≤ w := by
  unfold find_shift coarseShift
  set p := argmaxRM (fun p => (crossCorr h w ref mov p).natAbs) (rowMajorIndices h w)
    with hpdef
  have hne : rowMajorIndices h w ≠ [] := by
    obtain ⟨tl, htl⟩ := rowMajorIndices_eq_cons hh hw
    rw [htl]
    exact List.cons_ne_nil _ _
  have hmem := argmaxRM_mem (fun p => (crossCorr h w ref mov p).natAbs) _ hne
  rw [← hpdef] at hmem
  have hbounds := mem_rowMajorIndices.mp hmem
  have b1 := wrapIndex_bounds h p.1 hh hbounds.1
  have b2 := wrapIndex_bounds w p.2 hw hbounds.2
  refine ⟨?_, ?_, ?_, ?_⟩ <;> simp only [zeroDegenerate] <;> split_ifs <;> omega

/-- C4 witness: bounds at a concrete 2×2 input. -/
theorem shift_vector_range_witness :
    -((2 : ℕ) : ℤ) < 2 * (find_shift 2 2 (spikeAt 0 0) (spikeAt 1 1) 1 (3 / 10)).1 ∧
      2 * (find_shift 2 2 (spikeAt 0 0) (spikeAt 1 1) 1 (3 / 10)).1 ≤ (2 : ℕ) ∧
      -((2 : ℕ) : ℤ) < 2 * (find_shift 2 2 (spikeAt 0 0) (spikeAt 1 1) 1 (3 / 10)).2 ∧
      2 * (find_shift 2 2 (spikeAt 0 0) (spikeAt 1 1) 1 (3 / 10)).2 ≤ (2 : ℕ) :=
  shift_vector_range 2 2 (spikeAt 0 0) (spikeAt 1 1) 1 (3 / 10) (by decide) (by decide)

set_option maxRecDepth 100000 in
/-- C4 counterexample: on a 2×2 pair whose correlation peak sits at raw index
`N/2 = 1`, the returned component equals `+1 = N/2`, which is *not* below
`N/2` — so the claimed interval `[-N/2, N/2)` is violated. -/
theorem shift_vector_range_fails_right_open :
    ¬ (2 * (find_shift 2 2 (spikeAt 0 0) (spikeAt 1 1) 1 (3 / 10)).1 < ((2 : ℕ) : ℤ)) := by
  decide

/-- C5 (amended): the sweep does not skip windows whose bounds exceed the
raster extent — slice semantics clip them, the estimator runs on the clipped
views and the magnitude is written over the clipped footprint.  What survives
of the claim is its last part: output cells covered by no (clipped) window
footprint retain the no-data sentinel.  The second conjunct exhibits the
clipping: on a 5×5 raster with `window_size = 4`, `window_step = 2`, cell
`(4, 4)` is covered only by windows whose bounds `[2, 6)` exceed the extent,
yet it is written (value 0, the self-match magnitude), not left at `-9999`. -/
theorem out_of_bounds_windows_clipped :
    (∀ (H W size step : ℕ) (refD movD : ℕ → ℕ → ℤ) (nd : ℝ) (i j : ℕ),
        (∀ p ∈ windowPairs H W size step, ¬ inFootprint H W size p i j) →
          sweepGrid H W refD movD size step nd i j = nd) ∧
      sweepGrid 5 5 (constGrid 5) (constGrid 5) 4 2 (-9999) 4 4 = 0 := by
  constructor
  · intro H W size step refD movD nd i j huncov
    exact sweepGrid_uncovered H W size step refD movD nd i j huncov
  · exact sweepGrid_self_covered 5 5 4 2 (constGrid 5) (-9999) 4 4
      ⟨(4, 4), by decide, by decide⟩

/-- C5 witness: instantiation of the uncovered-cell conjunct — on a 3×3
raster with `window_size = window_step = 2` the single window covers
`[0, 2) × [0, 2)`, so cell `(2, 2)` keeps the sentinel. -/
theorem out_of_bounds_windows_clipped_witness :
    sweepGrid 3 3 (constGrid 0) (constGrid 0) 2 2 (-7) 2 2 = -7 :=
  out_of_bounds_windows_clipped.1 3 3 2 2 (constGrid 0) (constGrid 0) (-7) 2 2 (by decide)

/-- C5 counterexample: the claim says no estimator call is made and no output
cell is written for a window whose bounds exceed the raster extent.  On the
5×5 raster with `window_size = 4`, `window_step = 2`, every window covering
cell `(4, 4)` has `row_end = col_end = 6 > 5`; under the claimed skip
behaviour the cell would retain the sentinel `-9999`, but the sweep writes the
clipped window's magnitude there. -/
theorem out_of_bounds_cell_written :
    sweepGrid 5 5 (constGrid 5) (constGrid 5) 4 2 (-9999) 4 4 ≠ (-9999 : ℝ) := by
  have h0 : sweepGrid 5 5 (constGrid 5) (constGrid 5) 4 2 (-9999) 4 4 = 0 :=
    sweepGrid_self_covered 5 5 4 2 (constGrid 5) (-9999) 4 4
      ⟨(4, 4), by decide, by decide⟩
  rw [h0]
  norm_num

/-- C6 (amended): for `window_step = window_size` with an *even* positive
`window_size`, raster dimensions positive exact multiples of it, and both
dimensions at most `32768` — so that no center of the source's
`np.arange(..., dtype=np.int16)` sequence overflows a signed 16-bit value —
every output cell is covered by exactly one window and none retains the
(negative) no-data sentinel.  Evenness is forced: `half = window_size / 2`
truncates, so an odd `window_size` tiles the raster with `size − 1`-wide
windows and leaves the last row/column of every block unwritten (see the
counterexample).  The dimension bound is forced by the int16 dtype: e.g. at
`H = W = 131072`, `window_size = 64`, the centers from `32768` on wrap (or
make `arange` error, in recent numpy), and whole bands of cells are never
written under any of those behaviours; below the bound every stored center
equals its exact value and all behaviours coincide. -/
theorem sweep_exact_cover (H W size : ℕ) (refD movD : ℕ → ℕ → ℤ) (nd : ℝ) (i j : ℕ)
    (hH : ∃ a, 0 < a ∧ H = a * size) (hW : ∃ b, 0 < b ∧ W = b * size)
    (heven : size % 2 = 0) (hsize : 0 < size)
    (hHb : H ≤ 32768) (hWb : W ≤ 32768)
    (hi : i < H) (hj : j < W) (hnd : nd < 0) :
    writeCount H W size size i j = 1 ∧
      sweepGrid H W refD movD size size nd i j ≠ nd := by
  obtain ⟨a, ha, rfl⟩ := hH
  obtain ⟨b, hb, rfl⟩ := hW
  obtain ⟨q, rfl⟩ : ∃ q, size = 2 * q := ⟨size / 2, by omega⟩
  have hq : 0 < q := by omega
  refine ⟨?_, ?_⟩
  · unfold writeCount
    rw [rowWriteCount_exact q a i hq hi hHb, rowWriteCount_exact q b j hq hj hWb]
  · have hcov := exists_cover_pair (a * (2 * q)) (b * (2 * q)) (2 * q) (2 * q) i j
      (by rw [rowWriteCount_exact q a i hq hi hHb]; norm_num)
      (by rw [rowWriteCount_exact q b j hq hj hWb]; norm_num)
    have hnn := sweepGrid_covered_nonneg (a * (2 * q)) (b * (2 * q)) (2 * q) (2 * q)
      refD movD nd i j hcov
    intro heq
    rw [heq] at hnn
    linarith

/-- C6 witness: 2×2 raster, `window_size = window_step = 2`. -/
theorem sweep_exact_cover_witness :
    writeCount 2 2 2 2 0 0 = 1 ∧
      sweepGrid 2 2 (constGrid 0) (constGrid 0) 2 2 (-1) 0 0 ≠ -1 :=
  sweep_exact_cover 2 2 2 (constGrid 0) (constGrid 0) (-1) 0 0
    ⟨1, by decide, by decide⟩ ⟨1, by decide, by decide⟩
    (by decide) (by decide) (by decide) (by decide) (by decide) (by decide) (by norm_num)

/-- C6 counterexample: a 3×3 raster is a positive exact multiple of
`window_size = window_step = 3`, yet cell `(2, 2)` is covered by zero windows
(`half = 3 / 2 = 1` truncates, the single window only spans `[0, 2)²`), not
exactly once as the claim requires. -/
theorem sweep_exact_cover_fails_odd :
    (3 : ℕ) = 1 * 3 ∧ writeCount 3 3 3 3 2 2 = 0 := by
  decide

/-- C7 (amended): output cells hold either the no-data sentinel or the exact
double-precision magnitude `sqrt(dy² + dx²)` of an integer shift pair — no
truncation to a 16-bit integer happens on write.  (In the source,
`no_data * np.ones((x_max, y_max), dtype=DTYPE)` promotes to a `float64`
array — `DTYPE = int16` only types the intermediate ones-array — and the
`double[:, :]` view writes untruncated doubles; the returned raster has
floating-point, not 16-bit integer, elements.) -/
theorem output_values_untruncated (H W size step : ℕ) (refD movD : ℕ → ℕ → ℤ)
    (nd : ℝ) (i j : ℕ) :
    sweepGrid H W refD movD size step nd i j = nd ∨
      ∃ a b : ℤ, sweepGrid H W refD movD size step nd i j
        = Real.sqrt (((b * b + a * a : ℤ) : ℝ)) :=
  foldl_sweepStep_form H W size refD movD i j (windowPairs H W size step) (fun _ _ => nd)

set_option maxRecDepth 100000 in
/-- C7 counterexample: with a 4×4 spike pair shifted by `(1, 1)` and a single
full-frame window, the output cell `(0, 0)` holds `√2`, an irrational value —
impossible if magnitudes were truncated/cast to a 16-bit (or any) integer
type on write. -/
theorem output_cell_irrational :
    Irrational (sweepGrid 4 4 (spikeAt 0 0) (spikeAt 3 3) 4 4 (-9999) 0 0) := by
  have hval : sweepGrid 4 4 (spikeAt 0 0) (spikeAt 3 3) 4 4 (-9999) 0 0
      = Real.sqrt 2 := by
    have hwp : windowPairs 4 4 4 4 = [(2, 2)] := by decide
    unfold sweepGrid
    rw [hwp]
    show sweepStep 4 4 4 (spikeAt 0 0) (spikeAt 3 3) (fun _ _ => (-9999 : ℝ)) (2, 2) 0 0
      = Real.sqrt 2
    unfold sweepStep
    rw [if_pos (by decide)]
    unfold windowValue
    have hsh : windowShift 4 4 4 (spikeAt 0 0) (spikeAt 3 3) (2, 2) = (1, 1) := by decide
    rw [hsh]
    norm_num
  rw [hval]
  exact irrational_sqrt_two

/-- C8: `phase_cross_correlation` of the compiled OPCC module asserts shape
equality before the output raster is allocated and before any window loop
iteration; mismatched shapes abort the sweep with no estimation and no write
(the `none` branch of the model). -/
theorem shape_mismatch_aborts (reference moving : Raster) (ws st : ℕ)
    (nd : ℝ) (u : ℤ)
    (hne : reference.height ≠ moving.height ∨ reference.width ≠ moving.width) :
    phase_cross_correlation reference moving ws st nd u = none := by
  unfold phase_cross_correlation
  rw [if_neg]
  tauto

/-- C8 witness: a 1×1 and a 2×1 raster. -/
theorem shape_mismatch_aborts_witness :
    phase_cross_correlation ⟨1, 1, constGrid 0⟩ ⟨2, 1, constGrid 0⟩ 64 64 (-9999) 1
      = none :=
  shape_mismatch_aborts ⟨1, 1, constGrid 0⟩ ⟨2, 1, constGrid 0⟩ 64 64 (-9999) 1
    (Or.inl (by decide))

/-- C9: `overlap_ratio` is dead API surface — both estimator variants return
identical results for any two values of it, on every input. -/
theorem overlap_has_no_effect (h w : ℕ) (ref mov : ℕ → ℕ → ℤ) (u : ℤ)
    (a b : ℚ) (updft : ℤ → ℚ → ℚ × ℚ → ℕ → ℕ → ℚ) :
    find_shift_full h w ref mov u a updft = find_shift_full h w ref mov u b updft ∧
      find_shift h w ref mov u a = find_shift h w ref mov u b :=
  ⟨rfl, rfl⟩

/-- C10: in the compiled OPCC module the `upsample` argument of
`phase_cross_correlation` is never forwarded to `find_shift` (the source calls
`find_shift(reference_window, moving_window)` with defaults, and that
variant's `find_shift` has no upsampling branch at all), so any two upsample
values produce identical output rasters. -/
theorem upsample_has_no_effect (reference moving : Raster) (ws st : ℕ)
    (nd : ℝ) (u1 u2 : ℤ) :
    phase_cross_correlation reference moving ws st nd u1
      = phase_cross_correlation reference moving ws st nd u2 :=
  rfl
